import Mathlib

/-!
# Verification of the neurips2025-explorer search core

Shallow embedding of `backend/app/search.py`, `backend/app/database.py` and
`backend/scripts/build_index.py`.  JSON-typed Python values are modelled by
the inductive type `Value`; Python `dict`s are modelled as insertion-ordered
association lists with unique keys (Python dictionaries preserve insertion
order and overwrite in place).  Python `float`s carry their `repr` string,
since no arithmetic is performed on them anywhere in the search core.
-/

namespace Explorer

/-- A JSON-typed Python value as it appears in the corpus records.
`float` carries the Python `repr` of the number. -/
inductive Value where
  | null : Value
  | bool (b : Bool) : Value
  | int (n : Int) : Value
  | float (r : String) : Value
  | str (s : String) : Value
  | list (items : List Value) : Value
  | dict (entries : List (String × Value)) : Value

/-- A Python dict from field names to values (insertion-ordered). -/
abbrev Record := List (String × Value)

/-- `.lower()` (basic-latin case folding, matching the corpus content). -/
def strLower (s : String) : String := ⟨s.data.map Char.toLower⟩

/-- `.strip()`: surrounding whitespace removed (the common space, tab and
newline characters). -/
def strTrim (s : String) : String :=
  ⟨(((s.data.dropWhile Char.isWhitespace).reverse).dropWhile Char.isWhitespace).reverse⟩

/-- Python `repr` of a string: quote selection (single quotes unless the
string contains a single quote and no double quote) plus escaping of the
backslash, the chosen quote and common control characters. -/
def pyCharEsc (quote : Char) (c : Char) : String :=
  if c = '\\' then "\\\\"
  else if c = quote then "\\" ++ String.singleton quote
  else if c = '\n' then "\\n"
  else if c = '\t' then "\\t"
  else if c = '\x0d' then "\\r"
  else String.singleton c

def pyStrRepr (s : String) : String :=
  let quote := if s.data.contains '\'' ∧ ¬ s.data.contains '"' then '"' else '\''
  String.singleton quote ++ String.join (s.data.map (pyCharEsc quote)) ++ String.singleton quote

mutual

/-- Python `repr` of a value. -/
def pyRepr : Value → String
  | .null => "None"
  | .bool b => if b then "True" else "False"
  | .int n => toString n
  | .float r => r
  | .str s => pyStrRepr s
  | .list items => "[" ++ pyReprList items ++ "]"
  | .dict entries => "\x7b" ++ pyReprDict entries ++ "\x7d"

def pyReprList : List Value → String
  | [] => ""
  | [v] => pyRepr v
  | v :: rest => pyRepr v ++ ", " ++ pyReprList rest

def pyReprDict : List (String × Value) → String
  | [] => ""
  | [kv] => pyStrRepr kv.1 ++ ": " ++ pyRepr kv.2
  | kv :: rest => pyStrRepr kv.1 ++ ": " ++ pyRepr kv.2 ++ ", " ++ pyReprDict rest

end

/-- Python `str` of a value: the identity on strings, `repr` otherwise. -/
def pyStr : Value → String
  | .str s => s
  | v => pyRepr v

/-! ## JSON serialization (`json.dumps`), parameterized by `ensure_ascii` -/

def hexDigitChar (n : Nat) : Char :=
  if n < 10 then Char.ofNat (48 + n) else Char.ofNat (87 + n)

def hex4 (n : Nat) : String :=
  String.mk [hexDigitChar (n / 4096 % 16), hexDigitChar (n / 256 % 16),
             hexDigitChar (n / 16 % 16), hexDigitChar (n % 16)]

def jsonCharEsc (ascii : Bool) (c : Char) : String :=
  if c = '"' then "\\\""
  else if c = '\\' then "\\\\"
  else if c = '\n' then "\\n"
  else if c = '\t' then "\\t"
  else if c = '\x0d' then "\\r"
  else if c = '\x08' then "\\b"
  else if c = '\x0c' then "\\f"
  else if c.toNat < 32 then "\\u" ++ hex4 c.toNat
  else if ascii && c.toNat > 126 then
    if c.toNat < 65536 then "\\u" ++ hex4 c.toNat
    else
      let v := c.toNat - 65536
      "\\u" ++ hex4 (55296 + v / 1024) ++ "\\u" ++ hex4 (56320 + v % 1024)
  else String.singleton c

def jsonStrLit (ascii : Bool) (s : String) : String :=
  "\"" ++ String.join (s.data.map (jsonCharEsc ascii)) ++ "\""

mutual

/-- `json.dumps` with default separators; `ascii` is the `ensure_ascii` flag
(`True` in `search.py`'s `augment_record`, `False` in `build_index.py`). -/
def jsonDumps (ascii : Bool) : Value → String
  | .null => "null"
  | .bool b => if b then "true" else "false"
  | .int n => toString n
  | .float r => r
  | .str s => jsonStrLit ascii s
  | .list items => "[" ++ jsonDumpsList ascii items ++ "]"
  | .dict entries => "\x7b" ++ jsonDumpsDict ascii entries ++ "\x7d"

def jsonDumpsList (ascii : Bool) : List Value → String
  | [] => ""
  | [v] => jsonDumps ascii v
  | v :: rest => jsonDumps ascii v ++ ", " ++ jsonDumpsList ascii rest

def jsonDumpsDict (ascii : Bool) : List (String × Value) → String
  | [] => ""
  | [kv] => jsonStrLit ascii kv.1 ++ ": " ++ jsonDumps ascii kv.2
  | kv :: rest => jsonStrLit ascii kv.1 ++ ": " ++ jsonDumps ascii kv.2 ++ ", " ++ jsonDumpsDict ascii rest

end

/-! ## Python dict operations on association lists -/

/-- Indexing / `.get`: the value at the first matching key. -/
def lookupVal : Record → String → Option Value
  | [], _ => none
  | kv :: rest, k => if kv.1 = k then some kv.2 else lookupVal rest k

/-- Assignment `d[k] = v`: overwrite in place, else append (Python dicts
preserve the position of an existing key on assignment). -/
def dictSet : Record → String → Value → Record
  | [], k, v => [(k, v)]
  | kv :: rest, k, v => if kv.1 = k then (k, v) :: rest else kv :: dictSet rest k v

/-- `record.get(k)` as seen by `is None` checks: a stored JSON `null` is
indistinguishable from an absent key. -/
def pyGet (record : Record) (k : String) : Option Value :=
  match lookupVal record k with
  | some .null => none
  | o => o

/-- `value is None`. -/
def isNullV : Value → Bool
  | .null => true
  | _ => false

/-! ## Tokenization and the FTS query (`prepare_fts_query`) -/

/-- `\w` of `re`: alphanumeric or underscore (the corpus and queries are
modelled over the basic-latin range). -/
def isWordChar (c : Char) : Bool := c.isAlphanum || c = '_'

def wordTokensAux : List Char → List Char → List String
  | [], acc => if acc.isEmpty then [] else [String.mk acc.reverse]
  | c :: cs, acc =>
    if isWordChar c then wordTokensAux cs (c :: acc)
    else if acc.isEmpty then wordTokensAux cs []
    else String.mk acc.reverse :: wordTokensAux cs []

/-- `re.findall(r"\w+", query.lower())`: maximal word-character runs. -/
def wordTokens (query : String) : List String := wordTokensAux (strLower query).data []

def prepare_fts_query (query : String) : String :=
  let tokens := wordTokens query
  if tokens.isEmpty then ""
  else String.intercalate " AND " (tokens.map (fun token => token ++ "*"))

/-! ## Structured filters (`normalise_filters`, `record_matches_filters`) -/

/-- Substring containment `sub in s` on strings. -/
def charsBeginWith : List Char → List Char → Bool
  | [], _ => true
  | _ :: _, [] => false
  | a :: n, b :: h => a = b && charsBeginWith n h

def charsContain (hay needle : List Char) : Bool :=
  charsBeginWith needle hay ||
    match hay with
    | [] => false
    | _ :: h => charsContain h needle

def strContains (s sub : String) : Bool := charsContain s.data sub.data

/-- Lexicographic `≤` on strings as code-point sequences (Python's string
comparison). -/
def charsLe : List Char → List Char → Bool
  | [], _ => true
  | _ :: _, [] => false
  | a :: as, b :: bs => if a < b then true else if b < a then false else charsLe as bs

def strLe (a b : String) : Bool := charsLe a.data b.data

/-! ## A stable sort

Python's `list.sort` is guaranteed stable.  A stable sort by a total
preorder is extensionally unique, so any stable implementation embeds it;
we use a structurally recursive insertion sort (new elements go before the
ones they tie with, preserving the original relative order of ties). -/

def insertLe {α : Type} (le : α → α → Bool) (x : α) : List α → List α
  | [] => [x]
  | y :: ys => if le x y then x :: y :: ys else y :: insertLe le x ys

def stableSortBy {α : Type} (le : α → α → Bool) : List α → List α
  | [] => []
  | x :: xs => insertLe le x (stableSortBy le xs)

/-- The branch of `normalise_filters` that turns one raw filter value into a
list of candidate strings (`None` → dropped; `str` → singleton; sequence →
one string per element; anything else → its `str` form). -/
def filterCandidates : Value → Option (List String)
  | .null => none
  | .str s => some [s]
  | .list items => some (items.map pyStr)
  | v => some [pyStr v]

def normalise_filters : Option (List (String × Value)) → List (String × List String)
  | none => []
  | some [] => []
  | some raw =>
    raw.filterMap fun kv =>
      match filterCandidates kv.2 with
      | none => none
      | some cands => some (kv.1, (cands.map strTrim).filter (· ≠ ""))

/-- The token list `record_matches_filters` derives from a field value
(the `isinstance` cascade: bool, int/float, str, dict, iterable, fallback). -/
def fieldTokens : Value → List String
  | .bool b => [if b then "true" else "false"]
  | .int n => [pyStr (.int n)]
  | .float r => [pyStr (.float r)]
  | .str s => [s]
  | .dict entries => [pyStr (.dict entries)]
  | .list items => items.map pyStr
  | .null => [pyStr Value.null]

/-- `record.get(field)`, falling back to the `_search` companion column when
the primary value is `None` (absent or stored null). -/
def effectiveValue (record : Record) (field : String) : Option Value :=
  match pyGet record field with
  | some v => some v
  | none => pyGet record (field ++ "_search")

def fieldMatches (values : List String) (fv : Value) : Bool :=
  let lowered := (fieldTokens fv).map strLower
  lowered.any fun token => values.any fun v => strContains token (strLower v)

def record_matches_filters (record : Record) (filters : List (String × List String)) : Bool :=
  filters.all fun fv =>
    fv.2.isEmpty ||
      match effectiveValue record fv.1 with
      | none => false
      | some v => fieldMatches fv.2 v

/-! ## Field sort (`sort_records`) -/

/-- The sort key of one record: `str(value[0]).lower()` for a non-empty list,
`""` for `None`/absent, `str(value).lower()` otherwise. -/
def sortKeyFor (field : String) (record : Record) : String :=
  match lookupVal record field with
  | some (.list (v :: _)) => strLower (pyStr v)
  | none => ""
  | some .null => ""
  | some v => strLower (pyStr v)

/-- `records.sort(key=sort_key, reverse=descending)`: a stable sort by the
lowercased key (Python's sort is stable; `reverse=True` keeps ties in their
original order, which a stable merge sort with the flipped comparison also
does). -/
def sort_records (records : List Record) (field : String) (descending : Bool) : List Record :=
  stableSortBy
    (fun a b =>
      if descending then strLe (sortKeyFor field b) (sortKeyFor field a)
      else strLe (sortKeyFor field a) (sortKeyFor field b))
    records

/-! ## `_search` augmentation (`augment_record`) -/

/-- `item not in (None, "")`. -/
def keepItem : Value → Bool
  | .null => false
  | .str "" => false
  | _ => true

/-- `" | ".join(str(item) for item in value if item not in (None, ""))`. -/
def listJoined (items : List Value) : String :=
  String.intercalate " | " ((items.filter keepItem).map pyStr)

/-- One iteration of `augment_record`'s loop, applied to the accumulated
dict; the scrutinized value comes from the pre-loop snapshot
`list(record.items())`. -/
def augmentStep (acc : Record) (kv : String × Value) : Record :=
  match kv.2 with
  | .list items => dictSet acc (kv.1 ++ "_search") (.str (listJoined items))
  | .dict entries => dictSet acc (kv.1 ++ "_search") (.str (jsonDumps true (.dict entries)))
  | _ => acc

def augment_record (record : Record) : Record := record.foldl augmentStep record

/-! ## UTF-8 and SHA-256 (the deterministic random-sort key) -/

def utf8Char (c : Char) : List Nat :=
  let n := c.toNat
  if n < 128 then [n]
  else if n < 2048 then [192 + n / 64, 128 + n % 64]
  else if n < 65536 then [224 + n / 4096, 128 + n / 64 % 64, 128 + n % 64]
  else [240 + n / 262144, 128 + n / 4096 % 64, 128 + n / 64 % 64, 128 + n % 64]

/-- `.encode("utf-8")`: the byte sequence of a string. -/
def utf8Encode (s : String) : List Nat :=
  s.data.foldr (fun c acc => utf8Char c ++ acc) []

/-- Truncation to a 32-bit word. -/
def w32 (n : Nat) : Nat := n % 4294967296

def rotr32 (x n : Nat) : Nat := w32 ((x >>> n) ||| (x <<< (32 - n)))

def smallSigma0 (x : Nat) : Nat := rotr32 x 7 ^^^ rotr32 x 18 ^^^ (x >>> 3)

def smallSigma1 (x : Nat) : Nat := rotr32 x 17 ^^^ rotr32 x 19 ^^^ (x >>> 10)

def bigSigma0 (x : Nat) : Nat := rotr32 x 2 ^^^ rotr32 x 13 ^^^ rotr32 x 22

def bigSigma1 (x : Nat) : Nat := rotr32 x 6 ^^^ rotr32 x 11 ^^^ rotr32 x 25

def chVal (e f g : Nat) : Nat := (e &&& f) ^^^ ((e ^^^ 4294967295) &&& g)

def majVal (a b c : Nat) : Nat := (a &&& b) ^^^ (a &&& c) ^^^ (b &&& c)

/-- The 64 round constants of SHA-256 (FIPS 180-4), in decimal. -/
def sha256K : List Nat :=
  [1116352408, 1899447441, 3049323471, 3921009573, 961987163, 1508970993,
   2453635748, 2870763221, 3624381080, 310598401, 607225278, 1426881987,
   1925078388, 2162078206, 2614888103, 3248222580, 3835390401, 4022224774,
   264347078, 604807628, 770255983, 1249150122, 1555081692, 1996064986,
   2554220882, 2821834349, 2952996808, 3210313671, 3336571891, 3584528711,
   113926993, 338241895, 666307205, 773529912, 1294757372, 1396182291,
   1695183700, 1986661051, 2177026350, 2456956037, 2730485921, 2820302411,
   3259730800, 3345764771, 3516065817, 3600352804, 4094571909, 275423344,
   430227734, 506948616, 659060556, 883997877, 958139571, 1322822218,
   1537002063, 1747873779, 1955562222, 2024104815, 2227730452, 2361852424,
   2428436474, 2756734187, 3204031479, 3329325298]

/-- The initial hash state of SHA-256, in decimal. -/
def sha256Init : List Nat :=
  [1779033703, 3144134277, 1013904242, 2773480762,
   1359893119, 2600822924, 528734635, 1541459225]

/-- `n` big-endian bytes of `v`. -/
def beBytes : Nat → Nat → List Nat
  | 0, _ => []
  | n+1, v => beBytes n (v / 256) ++ [v % 256]

def sha256Pad (msg : List Nat) : List Nat :=
  let l := msg.length
  msg ++ [128] ++ List.replicate ((119 - l % 64) % 64) 0 ++ beBytes 8 (8 * l)

def chunks64Aux : Nat → List Nat → List (List Nat)
  | _, [] => []
  | 0, l => [l]
  | fuel + 1, x :: rest => ((x :: rest).take 64) :: chunks64Aux fuel ((x :: rest).drop 64)

/-- Split a byte sequence into 64-byte blocks (the fuel is an upper bound
on the number of blocks, so it never runs out). -/
def chunks64 (l : List Nat) : List (List Nat) := chunks64Aux l.length l

def beWord (block : List Nat) (i : Nat) : Nat :=
  block.getD (4*i) 0 * 16777216 + block.getD (4*i+1) 0 * 65536 +
    block.getD (4*i+2) 0 * 256 + block.getD (4*i+3) 0

def extendWords : List Nat → Nat → List Nat
  | w, 0 => w
  | w, n+1 =>
    let i := w.length
    let next := w32 (w.getD (i-16) 0 + smallSigma0 (w.getD (i-15) 0) +
                     w.getD (i-7) 0 + smallSigma1 (w.getD (i-2) 0))
    extendWords (w ++ [next]) n

def schedule (block : List Nat) : List Nat :=
  extendWords ((List.range 16).map (beWord block)) 48

def roundStep (st : List Nat) (kw : Nat × Nat) : List Nat :=
  match st with
  | [a, b, c, d, e, f, g, h] =>
    let t1 := w32 (h + bigSigma1 e + chVal e f g + kw.1 + kw.2)
    let t2 := w32 (bigSigma0 a + majVal a b c)
    [w32 (t1 + t2), a, b, c, w32 (d + t1), e, f, g]
  | other => other

def compressBlock (h : List Nat) (block : List Nat) : List Nat :=
  let st := (sha256K.zip (schedule block)).foldl roundStep h
  (h.zip st).map fun p => w32 (p.1 + p.2)

/-- SHA-256 digest (32 bytes) of a byte sequence. -/
def sha256 (msg : List Nat) : List Nat :=
  ((chunks64 (sha256Pad msg)).foldl compressBlock sha256Init).foldr
    (fun h acc => beBytes 4 h ++ acc) []

/-- `seed or "0"`. -/
def randSeedStr : Option String → String
  | none => "0"
  | some s => if s = "" then "0" else s

/-- The key of the seeded random sort: the first 8 bytes of
`sha256(f"{s}:{rid}")` as an unsigned big-endian integer, where
`rid = str(record.get("id", ""))`. -/
def rand_key (s : String) (record : Record) : Nat :=
  let rid := match lookupVal record "id" with
    | none => ""
    | some v => pyStr v
  ((sha256 (utf8Encode (s ++ ":" ++ rid))).take 8).foldl (fun acc b => acc * 256 + b) 0

/-! ## Python `int(...)` conversion (used on the `id` field at build time) -/

def parseIntDigits : List Char → Nat → Bool → Bool → Option Nat
  | [], acc, lastDigit, seen => if seen && lastDigit then some acc else none
  | c :: rest, acc, lastDigit, seen =>
    if c.isDigit then parseIntDigits rest (acc * 10 + (c.toNat - 48)) true true
    else if c = '_' && lastDigit then parseIntDigits rest acc false seen
    else none

/-- `int(s)` on a string: optional surrounding whitespace, optional sign,
decimal digits with single grouping underscores. -/
def pyIntOfString (s : String) : Option Int :=
  match s.trim.data with
  | '-' :: rest => (parseIntDigits rest 0 false false).map fun n => -(n : Int)
  | '+' :: rest => (parseIntDigits rest 0 false false).map fun n => (n : Int)
  | cs => (parseIntDigits cs 0 false false).map fun n => (n : Int)

def takeDigitsAux : List Char → Nat → Nat → Nat × Nat × List Char
  | c :: rest, acc, cnt =>
    if c.isDigit then takeDigitsAux rest (acc * 10 + (c.toNat - 48)) (cnt + 1)
    else (acc, cnt, c :: rest)
  | [], acc, cnt => (acc, cnt, [])

/-- `int(f)` on a finite float given its decimal `repr` (possibly with a
fractional part and exponent): truncation toward zero; `inf`/`nan` raise. -/
def pyIntOfFloatRepr (s : String) : Option Int :=
  let (neg, cs) :=
    match s.data with
    | '-' :: rest => (true, rest)
    | cs => (false, cs)
  let (ip, ic, cs1) := takeDigitsAux cs 0 0
  if ic = 0 then none else
  let (fp, fc, cs2) :=
    match cs1 with
    | '.' :: rest => takeDigitsAux rest 0 0
    | _ => (0, 0, cs1)
  let expPart : Option Int :=
    match cs2 with
    | [] => some 0
    | 'e' :: '-' :: rest =>
      match takeDigitsAux rest 0 0 with
      | (v, _ + 1, []) => some (-(v : Int))
      | _ => none
    | 'e' :: '+' :: rest =>
      match takeDigitsAux rest 0 0 with
      | (v, _ + 1, []) => some (v : Int)
      | _ => none
    | _ => none
  match expPart with
  | none => none
  | some e =>
    let n := ip * 10 ^ fc + fp
    let net : Int := e - (fc : Int)
    let mag : Nat := if 0 ≤ net then n * 10 ^ net.toNat else n / 10 ^ (-net).toNat
    some (if neg then -(mag : Int) else (mag : Int))

/-- Python `int(value)`: identity on ints, `True`/`False` ↦ `1`/`0`, string
parse, float truncation; lists, dicts (and `None`) raise. -/
def pyToInt : Value → Option Int
  | .int n => some n
  | .bool b => some (if b then 1 else 0)
  | .str s => pyIntOfString s
  | .float r => pyIntOfFloatRepr r
  | .null => none
  | .list _ => none
  | .dict _ => none

/-! ## Index builder (`build_index.py`) -/

/-- One flattened row as produced by `normalise_record`.  The `id` column is
kept apart from the other columns (it is the table's integer primary key);
`source` holds the record whose serialization is `rawJson` — the loader's
`json.loads(raw_json)` is modelled as recovering it. -/
structure FlatRow where
  rowId : Option Int
  cols : Record
  searchBlob : String
  rawJson : String
  source : Record

/-- One iteration of `normalise_record`'s loop: accumulates the id column,
the flattened columns and the text fragments; `int()` failures raise. -/
def normStep (acc : Option Int × Record × List String) (kv : String × Value) :
    Except String (Option Int × Record × List String) :=
  if kv.1 = "id" then
    if isNullV kv.2 then .ok (none, acc.2)
    else
      match pyToInt kv.2 with
      | none => .error "invalid literal for int()"
      | some n => .ok (some n, acc.2)
  else
    match kv.2 with
    | .null => .ok (acc.1, dictSet acc.2.1 kv.1 .null, acc.2.2)
    | .list items =>
      let asJson := jsonDumps false (.list items)
      let joined := listJoined items
      let cols1 := dictSet acc.2.1 kv.1 (.str asJson)
      if joined ≠ "" then
        .ok (acc.1, dictSet cols1 (kv.1 ++ "_search") (.str joined), acc.2.2 ++ [joined])
      else
        .ok (acc.1, dictSet cols1 (kv.1 ++ "_search") (.str ""), acc.2.2)
    | .dict entries =>
      let asJson := jsonDumps false (.dict entries)
      .ok (acc.1, dictSet acc.2.1 kv.1 (.str asJson), acc.2.2 ++ [asJson])
    | v => .ok (acc.1, dictSet acc.2.1 kv.1 v, acc.2.2 ++ [pyStr v])

def normalise_record (record : Record) : Except String FlatRow :=
  match record.foldlM normStep (none, [], []) with
  | .error e => .error e
  | .ok acc =>
    .ok { rowId := acc.1
          cols := acc.2.1
          searchBlob := String.intercalate "\n" (acc.2.2.filter (· ≠ ""))
          rawJson := jsonDumps false (.dict record)
          source := record }

/-- `read_json`: the top level must be a map with a `results` list. -/
def read_json (payload : Value) : Except String (List Value) :=
  match payload with
  | .dict entries =>
    match lookupVal entries "results" with
    | none => .error "Unexpected JSON structure: expected top-level results list"
    | some (.list results) => .ok results
    | some _ => .error "results must be a list"
  | _ => .error "Unexpected JSON structure: expected top-level results list"

/-- A corpus entry must be an object to be iterated by `normalise_record`
(anything else crashes the build with an attribute error). -/
def toRecord : Value → Except String Record
  | .dict entries => .ok entries
  | _ => .error "document is not an object"

/-- One iteration of `prepare_rows`' loop: normalise, then reject a row
whose id ended up missing or null. -/
def prepareRow (doc : Value) : Except String FlatRow :=
  match toRecord doc with
  | .error e => .error e
  | .ok record =>
    match normalise_record record with
    | .error e => .error e
    | .ok row =>
      match row.rowId with
      | none => .error "Each record must include a numeric id"
      | some _ => .ok row

def prepare_rows : List Value → Except String (List FlatRow)
  | [] => .ok []
  | doc :: rest =>
    match prepareRow doc with
    | .error e => .error e
    | .ok row =>
      match prepare_rows rest with
      | .error e => .error e
      | .ok rows => .ok (row :: rows)

/-- The persisted store: the `papers` table.  `create_database` only ever
runs on validated rows, whose ids are all present. -/
structure Database where
  papers : List (Int × FlatRow)

def create_database (rows : List FlatRow) : Database :=
  ⟨rows.filterMap fun row => row.rowId.map fun i => (i, row)⟩

/-- The rowids of the `papers_fts` virtual table, populated by
`INSERT INTO papers_fts (rowid, search_blob) SELECT id, search_blob FROM
papers` (a table scan in ascending rowid order). -/
def Database.ftsIds (db : Database) : List Int :=
  stableSortBy (fun a b => decide (a ≤ b)) (db.papers.map (·.1))

/-- The observable build actions against the output path, in order: the
existing database file is unlinked (when present) and the new store is
written, both inside `create_database`. -/
inductive BuildEffect where
  | unlinkExisting : BuildEffect
  | writeDb (db : Database) : BuildEffect

def buildEffects (prior : Option Database) (rows : List FlatRow) : List BuildEffect :=
  (if prior.isSome then [BuildEffect.unlinkExisting] else []) ++
    [BuildEffect.writeDb (create_database rows)]

/-- `main`: load and validate the corpus, then (and only then) touch the
output path.  Returns the effect trace, or the raised error. -/
def build_main (payload : Value) (prior : Option Database) :
    Except String (List BuildEffect) :=
  match read_json payload with
  | .error e => .error e
  | .ok docs =>
    match prepare_rows docs with
    | .error e => .error e
    | .ok rows => .ok (buildEffects prior rows)

def applyEffect (_ : Option Database) : BuildEffect → Option Database
  | .unlinkExisting => none
  | .writeDb db => some db

/-- The state of the output path after running the builder: unchanged when
the build raises. -/
def run_build (payload : Value) (prior : Option Database) : Option Database :=
  match build_main payload prior with
  | .error _ => prior
  | .ok effects => effects.foldl applyEffect prior

/-! ## Loader and `PaperStore` (`database.py`, `search.py`) -/

/-- `fetch_all_records`: every row ordered by id ascending, `raw_json`
parsed back and `id` injected. -/
def fetch_all_records (db : Database) : List Record :=
  (stableSortBy (fun a b => decide (a.1 ≤ b.1)) db.papers).map
    fun p => dictSet p.2.source "id" (.int p.1)

/-- The in-memory store: the read-only connection together with the FTS5
match oracle (the outcome of `papers_fts MATCH query` for a given rowid). -/
structure PaperStore where
  db : Database
  ftsMatch : String → Int → Bool

def PaperStore.records (store : PaperStore) : List Record :=
  (fetch_all_records store.db).map augment_record

/-- `record["id"]` of a loaded record (always an injected integer). -/
def idOf (record : Record) : Option Int :=
  match lookupVal record "id" with
  | some (.int n) => some n
  | _ => none

/-- `self.record_by_id[i]`: a dict comprehension keyed by id, so a later
record with the same id wins. -/
def PaperStore.recordById (store : PaperStore) (i : Int) : Option Record :=
  store.records.reverse.find? fun r => idOf r = some i

def PaperStore.allIds (store : PaperStore) : List Int :=
  store.records.filterMap idOf

/-- `fts_lookup`: empty for a falsy query or an empty FTS expression, else
the matching rowids of the inverted index (ascending rowid, FTS5's default
order). -/
def fts_lookup (store : PaperStore) (query : String) : List Int :=
  if query = "" then []
  else if prepare_fts_query query = "" then []
  else store.db.ftsIds.filter fun i => store.ftsMatch (prepare_fts_query query) i

/-- The candidate id set of `search` before the empty-prefilter early
return: all ids for a falsy query, else the FTS hits. -/
def searchCandidateIds (store : PaperStore) (query : Option String) : List Int :=
  match query with
  | none => store.allIds
  | some q => if q = "" then store.allIds else fts_lookup store q

/-- Whether `search` takes the `if not id_candidates: return 0, []` exit. -/
def searchEarlyEmpty (store : PaperStore) (query : Option String) : Bool :=
  match query with
  | none => false
  | some q => if q = "" then false else (fts_lookup store q).isEmpty

/-- The fully filtered candidate list (before ordering and slicing). -/
def searchMatched (store : PaperStore) (query : Option String)
    (filters : Option (List (String × Value))) : List Record :=
  ((searchCandidateIds store query).filterMap store.recordById).filter
    (record_matches_filters · (normalise_filters filters))

/-- The ordering stage: seeded random sort, named-field sort, or the
default ascending `name` sort. -/
def orderMatched (sortBy sortOrder seed : Option String)
    (matched : List Record) : List Record :=
  match sortBy with
  | none => sort_records matched "name" false
  | some s =>
    if s = "random" then
      stableSortBy
        (fun a b => decide (rand_key (randSeedStr seed) a ≤ rand_key (randSeedStr seed) b))
        matched
    else if s = "" then sort_records matched "name" false
    else sort_records matched s (decide (sortOrder = some "desc"))

/-- `PaperStore.search`. -/
def search (store : PaperStore) (query : Option String)
    (filters : Option (List (String × Value))) (page : Int) (pageSize : Nat)
    (sortBy sortOrder seed : Option String) : Nat × List Record :=
  if searchEarlyEmpty store query then (0, [])
  else
    let matched := searchMatched store query filters
    let ordered := orderMatched sortBy sortOrder seed matched
    let start := (max (page - 1) 0).toNat * pageSize
    (matched.length, (ordered.drop start).take pageSize)

/-! ## Schema reporting (`PaperStore.schema`, `detect_type`) -/

def detect_type : Value → String
  | .bool _ => "boolean"
  | .int _ => "integer"
  | .float _ => "float"
  | .dict _ => "object"
  | .list _ => "array"
  | _ => "string"

def lookupTag : List (String × String) → String → Option String
  | [], _ => none
  | kv :: rest, k => if kv.1 = k then some kv.2 else lookupTag rest k

def setTag : List (String × String) → String → String → List (String × String)
  | [], k, v => [(k, v)]
  | kv :: rest, k, v => if kv.1 = k then (k, v) :: rest else kv :: setTag rest k v

/-- One observed field of one record inside the `schema()` scan: null
values are skipped; a key already recorded with a different tag is demoted
to `mixed`; `setdefault` records the first tag. -/
def schemaStep (ft : List (String × String)) (kv : String × Value) :
    List (String × String) :=
  if isNullV kv.2 then ft
  else
    match lookupTag ft kv.1 with
    | some t => if t ≠ detect_type kv.2 then setTag ft kv.1 "mixed" else ft
    | none => setTag ft kv.1 (detect_type kv.2)

/-- The `field_types` accumulation of `PaperStore.schema`. -/
def schemaFieldTypes (records : List Record) : List (String × String) :=
  records.foldl (fun ft record => record.foldl schemaStep ft) []

/-! ## Auxiliary definitions used by the statements and proofs -/

/-- Whether an `Except` computation succeeded. -/
def exceptOk {α : Type} : Except String α → Bool
  | .ok _ => true
  | .error _ => false

/-- A record whose `id` is missing, stored null, or rejected by `int()`. -/
def badId (record : Record) : Prop :=
  match lookupVal record "id" with
  | none => True
  | some .null => True
  | some v => pyToInt v = none

/-- The retention predicate exactly as the filtering claim words it: for
every filter field, a non-null effective value exists and at least one
filter value, lowercased, occurs inside at least one lowercased token.
(Stated from the spec for comparison with `record_matches_filters`.) -/
def claimFilterRetained (record : Record) (filters : List (String × List String)) : Bool :=
  filters.all fun fv =>
    match effectiveValue record fv.1 with
    | none => false
    | some v => fieldMatches fv.2 v

/-- All non-null values observed for one field across the corpus, in scan
order. -/
def fieldObservations (records : List Record) (key : String) : List Value :=
  (records.foldr (fun r acc => r ++ acc) []).filterMap fun kv =>
    if isNullV kv.2 then none else if kv.1 = key then some kv.2 else none

/-- The classification the schema claim describes: the unique observed tag,
or `mixed` as soon as two observations disagree. -/
def classifyObs : List Value → Option String
  | [] => none
  | v :: vs =>
    some (if vs.all (fun w => detect_type w == detect_type v) then detect_type v else "mixed")

/-- List- or dict-valued (the values for which `augment_record` emits a
`_search` companion). -/
def isContainer : Value → Bool
  | .list _ => true
  | .dict _ => true
  | _ => false

/-- The sequence of `_search` assignments `augment_record` performs, read
off the pre-loop snapshot. -/
def writesOf (entries : Record) : List (String × Value) :=
  entries.filterMap fun kv =>
    match kv.2 with
    | .list items => some (kv.1 ++ "_search", .str (listJoined items))
    | .dict es => some (kv.1 ++ "_search", .str (jsonDumps true (.dict es)))
    | _ => none

/-- Apply a sequence of dict assignments in order. -/
def applyWrites (m : Record) (ws : List (String × Value)) : Record :=
  ws.foldl (fun acc w => dictSet acc w.1 w.2) m

/-! ## Concrete corpora used by witnesses and counterexamples -/

def rowOf (i : Int) (source : Record) : FlatRow :=
  { rowId := some i, cols := [], searchBlob := "", rawJson := "", source := source }

/-- A three-paper corpus echoing the spec's worked example: names
`Beta`, `Alpha`, `alpha` with ids 1, 2, 3. -/
def demoDb : Database :=
  ⟨[(1, rowOf 1 [("name", .str "Beta"), ("tags", .list [.str "NLP", .str "Vision"])]),
    (2, rowOf 2 [("name", .str "Alpha")]),
    (3, rowOf 3 [("name", .str "alpha")])]⟩

/-- The demo store with an FTS oracle that matches everything. -/
def demoStore : PaperStore := ⟨demoDb, fun _ _ => true⟩

/-- `augment_record`'s companion value for a container. -/
def augValue : Value → Value
  | .list items => .str (listJoined items)
  | .dict es => .str (jsonDumps true (.dict es))
  | v => v

/-- The non-null values one record contributes to a field's observations. -/
def entriesObs (entries : Record) (key : String) : List Value :=
  entries.filterMap fun kv =>
    if isNullV kv.2 then none else if kv.1 = key then some kv.2 else none

/-- One observation folded into the running tag of a field. -/
def combineStep (cur : Option String) (v : Value) : Option String :=
  match cur with
  | none => some (detect_type v)
  | some t => some (if t ≠ detect_type v then "mixed" else t)

def combineTag (cur : Option String) (obs : List Value) : Option String :=
  obs.foldl combineStep cur

/-! # Theorems -/

/-! ## Association-list lemmas -/

theorem lookupVal_dictSet_self (m : Record) (k : String) (v : Value) :
    lookupVal (dictSet m k v) k = some v := by
  induction m with
  | nil => simp [dictSet, lookupVal]
  | cons kv rest ih =>
    by_cases h : kv.1 = k
    · simp [dictSet, h, lookupVal]
    · simp [dictSet, h, lookupVal, ih]

theorem lookupVal_dictSet_ne (m : Record) (k k' : String) (v : Value) (h : k' ≠ k) :
    lookupVal (dictSet m k v) k' = lookupVal m k' := by
  have hne : ¬ k = k' := fun hh => h hh.symm
  induction m with
  | nil => simp [dictSet, lookupVal, hne]
  | cons kv rest ih =>
    by_cases hk : kv.1 = k
    · simp [dictSet, hk, lookupVal, hne]
    · simp [dictSet, hk, lookupVal, ih]

theorem dictSet_eq_self (m : Record) (k : String) (v : Value)
    (h : lookupVal m k = some v) : dictSet m k v = m := by
  induction m with
  | nil => simp [lookupVal] at h
  | cons kv rest ih =>
    by_cases hk : kv.1 = k
    · simp only [lookupVal, if_pos hk, Option.some.injEq] at h
      simp only [dictSet, if_pos hk]
      rw [← hk, ← h]
    · simp only [lookupVal, if_neg hk] at h
      simp [dictSet, hk, ih h]

theorem lookupVal_eq_none_of_not_mem (m : Record) (k : String)
    (h : k ∉ m.map Prod.fst) : lookupVal m k = none := by
  induction m with
  | nil => simp [lookupVal]
  | cons kv rest ih =>
    simp only [List.map_cons, List.mem_cons] at h
    push_neg at h
    have hne : ¬ kv.1 = k := fun hh => h.1 hh.symm
    simp [lookupVal, hne, ih h.2]

theorem mem_of_lookupVal_eq_some (m : Record) (k : String) (v : Value)
    (h : lookupVal m k = some v) : (k, v) ∈ m := by
  induction m with
  | nil => simp [lookupVal] at h
  | cons kv rest ih =>
    by_cases hk : kv.1 = k
    · simp only [lookupVal, if_pos hk, Option.some.injEq] at h
      exact List.mem_cons.mpr (Or.inl (by rw [← hk, ← h]))
    · simp only [lookupVal, if_neg hk] at h
      exact List.mem_cons_of_mem _ (ih h)

theorem lookupVal_eq_some_of_mem (m : Record) (kv : String × Value)
    (hnd : (m.map Prod.fst).Nodup) (h : kv ∈ m) : lookupVal m kv.1 = some kv.2 := by
  induction m with
  | nil => simp at h
  | cons hd rest ih =>
    simp only [List.map_cons, List.nodup_cons] at hnd
    rcases List.mem_cons.mp h with h | h
    · subst h; simp [lookupVal]
    · have hne : hd.1 ≠ kv.1 := by
        intro he
        exact hnd.1 (he ▸ List.mem_map_of_mem Prod.fst h)
      simp [lookupVal, hne, ih hnd.2 h]

theorem keys_dictSet (m : Record) (k : String) (v : Value) :
    (dictSet m k v).map Prod.fst =
      if k ∈ m.map Prod.fst then m.map Prod.fst else m.map Prod.fst ++ [k] := by
  induction m with
  | nil => simp [dictSet]
  | cons kv rest ih =>
    by_cases hk : kv.1 = k
    · simp [dictSet, hk]
    · simp only [dictSet, if_neg hk, List.map_cons, ih, List.mem_cons]
      by_cases hm : k ∈ rest.map Prod.fst <;> simp [hm, Ne.symm hk]

theorem nodup_keys_dictSet (m : Record) (k : String) (v : Value)
    (h : (m.map Prod.fst).Nodup) : ((dictSet m k v).map Prod.fst).Nodup := by
  rw [keys_dictSet]
  by_cases hm : k ∈ m.map Prod.fst
  · simpa [hm]
  · simpa [hm] using List.Nodup.append h (List.nodup_singleton k) (by simpa using hm)

/-! ## `applyWrites` lemmas -/

theorem applyWrites_cons (m : Record) (w : String × Value) (ws : List (String × Value)) :
    applyWrites m (w :: ws) = applyWrites (dictSet m w.1 w.2) ws := rfl

theorem lookupVal_applyWrites_of_not_mem (ws : List (String × Value)) (m : Record)
    (k : String) (h : k ∉ ws.map Prod.fst) :
    lookupVal (applyWrites m ws) k = lookupVal m k := by
  induction ws generalizing m with
  | nil => rfl
  | cons w rest ih =>
    simp only [List.map_cons, List.mem_cons] at h
    push_neg at h
    rw [applyWrites_cons, ih _ h.2, lookupVal_dictSet_ne _ _ _ _ h.1]

theorem lookupVal_applyWrites_of_mem (ws : List (String × Value)) (m : Record)
    (w : String × Value) (hnd : (ws.map Prod.fst).Nodup) (h : w ∈ ws) :
    lookupVal (applyWrites m ws) w.1 = some w.2 := by
  induction ws generalizing m with
  | nil => simp at h
  | cons hd rest ih =>
    simp only [List.map_cons, List.nodup_cons] at hnd
    rcases List.mem_cons.mp h with h | h
    · subst h
      rw [applyWrites_cons, lookupVal_applyWrites_of_not_mem _ _ _ hnd.1,
        lookupVal_dictSet_self]
    · rw [applyWrites_cons, ih _ hnd.2 h]

theorem nodup_keys_applyWrites (ws : List (String × Value)) (m : Record)
    (h : (m.map Prod.fst).Nodup) : ((applyWrites m ws).map Prod.fst).Nodup := by
  induction ws generalizing m with
  | nil => exact h
  | cons w rest ih => exact applyWrites_cons m w rest ▸ ih _ (nodup_keys_dictSet _ _ _ h)

theorem applyWrites_eq_self (ws : List (String × Value)) (m : Record)
    (h : ∀ w ∈ ws, lookupVal m w.1 = some w.2) : applyWrites m ws = m := by
  induction ws with
  | nil => rfl
  | cons w rest ih =>
    rw [applyWrites_cons, dictSet_eq_self _ _ _ (h w (List.mem_cons_self _ _))]
    exact ih fun w' hw' => h w' (List.mem_cons_of_mem _ hw')

/-! ## Stable-sort lemmas -/

theorem perm_insertLe {α : Type} (le : α → α → Bool) (x : α) :
    ∀ l : List α, (insertLe le x l).Perm (x :: l)
  | [] => List.Perm.refl _
  | y :: ys => by
    rw [insertLe]
    split
    · exact List.Perm.refl _
    · exact ((perm_insertLe le x ys).cons y).trans (List.Perm.swap x y ys)

theorem perm_stableSortBy {α : Type} (le : α → α → Bool) :
    ∀ l : List α, (stableSortBy le l).Perm l
  | [] => List.Perm.refl _
  | x :: xs =>
    (perm_insertLe le x (stableSortBy le xs)).trans ((perm_stableSortBy le xs).cons x)

theorem length_stableSortBy {α : Type} (le : α → α → Bool) (l : List α) :
    (stableSortBy le l).length = l.length :=
  (perm_stableSortBy le l).length_eq

theorem mem_insertLe {α : Type} (le : α → α → Bool) (x a : α) (l : List α) :
    a ∈ insertLe le x l ↔ a = x ∨ a ∈ l := by
  rw [(perm_insertLe le x l).mem_iff, List.mem_cons]

theorem mem_stableSortBy {α : Type} (le : α → α → Bool) (a : α) (l : List α) :
    a ∈ stableSortBy le l ↔ a ∈ l :=
  (perm_stableSortBy le l).mem_iff

theorem sorted_insertLe {α : Type} (le : α → α → Bool)
    (htrans : ∀ a b c, le a b = true → le b c = true → le a c = true)
    (htotal : ∀ a b, le a b = true ∨ le b a = true) (x : α) :
    ∀ l : List α, l.Pairwise (fun a b => le a b = true) →
      (insertLe le x l).Pairwise (fun a b => le a b = true)
  | [], _ => by simp [insertLe]
  | y :: ys, h => by
    rw [insertLe]
    rcases List.pairwise_cons.mp h with ⟨hy, hys⟩
    by_cases hxy : le x y = true
    · rw [if_pos hxy]
      refine List.pairwise_cons.mpr ⟨?_, h⟩
      intro b hb
      rcases List.mem_cons.mp hb with rfl | hb
      · exact hxy
      · exact htrans _ _ _ hxy (hy b hb)
    · rw [if_neg hxy]
      have hyx : le y x = true := (htotal x y).resolve_left hxy
      refine List.pairwise_cons.mpr ⟨?_, sorted_insertLe le htrans htotal x ys hys⟩
      intro b hb
      rcases (mem_insertLe le x b ys).mp hb with rfl | hb
      · exact hyx
      · exact hy b hb

theorem sorted_stableSortBy {α : Type} (le : α → α → Bool)
    (htrans : ∀ a b c, le a b = true → le b c = true → le a c = true)
    (htotal : ∀ a b, le a b = true ∨ le b a = true) :
    ∀ l : List α, (stableSortBy le l).Pairwise (fun a b => le a b = true)
  | [] => List.Pairwise.nil
  | x :: xs =>
    sorted_insertLe le htrans htotal x _ (sorted_stableSortBy le htrans htotal xs)

theorem filter_insertLe_neg {α : Type} (le : α → α → Bool) (p : α → Bool) (x : α)
    (hx : p x = false) :
    ∀ l : List α, (insertLe le x l).filter p = l.filter p
  | [] => by simp [insertLe, hx]
  | y :: ys => by
    rw [insertLe]
    split
    · simp [List.filter_cons, hx]
    · simp [List.filter_cons, filter_insertLe_neg le p x hx ys]

theorem filter_insertLe_pos {α : Type} (le : α → α → Bool) (p : α → Bool)
    (hp : ∀ a b, p a = true → p b = true → le a b = true) (x : α) (hx : p x = true) :
    ∀ l : List α, (insertLe le x l).filter p = x :: l.filter p
  | [] => by simp [insertLe, hx]
  | y :: ys => by
    rw [insertLe]
    by_cases hxy : le x y = true
    · rw [if_pos hxy]
      simp [List.filter_cons, hx]
    · rw [if_neg hxy]
      have hpy : p y = false := by
        cases hy : p y
        · rfl
        · exact absurd (hp x y hx hy) hxy
      simp [List.filter_cons, hpy, filter_insertLe_pos le p hp x hx ys]

/-- Stability of the sort: a class of mutually tied elements keeps exactly
its original members in its original order. -/
theorem filter_stableSortBy {α : Type} (le : α → α → Bool) (p : α → Bool)
    (hp : ∀ a b, p a = true → p b = true → le a b = true) :
    ∀ l : List α, (stableSortBy le l).filter p = l.filter p
  | [] => rfl
  | x :: xs => by
    rw [stableSortBy]
    cases hx : p x
    · rw [filter_insertLe_neg le p x hx, filter_stableSortBy le p hp xs]
      simp [List.filter_cons, hx]
    · rw [filter_insertLe_pos le p hp x hx, filter_stableSortBy le p hp xs]
      simp [List.filter_cons, hx]

/-! ## `augment_record` as a write sequence; loaded-record lemmas -/

theorem writesOf_list_cons (k : String) (items : List Value) (rest : Record) :
    writesOf ((k, Value.list items) :: rest) =
      (k ++ "_search", Value.str (listJoined items)) :: writesOf rest := rfl

theorem writesOf_dict_cons (k : String) (es : List (String × Value)) (rest : Record) :
    writesOf ((k, Value.dict es) :: rest) =
      (k ++ "_search", Value.str (jsonDumps true (Value.dict es))) :: writesOf rest := rfl

theorem writesOf_skip_cons (kv : String × Value) (rest : Record)
    (h : isContainer kv.2 = false) : writesOf (kv :: rest) = writesOf rest := by
  obtain ⟨k, v⟩ := kv
  cases v with
  | list items => simp [isContainer] at h
  | dict es => simp [isContainer] at h
  | null => rfl
  | bool b => rfl
  | int n => rfl
  | float r => rfl
  | str s => rfl

theorem foldl_augmentStep (entries : Record) : ∀ acc : Record,
    entries.foldl augmentStep acc = applyWrites acc (writesOf entries) := by
  induction entries with
  | nil => intro acc; rfl
  | cons kv rest ih =>
    intro acc
    obtain ⟨k, v⟩ := kv
    rw [List.foldl_cons]
    cases v with
    | list items => rw [writesOf_list_cons, applyWrites_cons]; exact ih _
    | dict es => rw [writesOf_dict_cons, applyWrites_cons]; exact ih _
    | null => rw [writesOf_skip_cons (k, Value.null) rest rfl]; exact ih _
    | bool b => rw [writesOf_skip_cons (k, Value.bool b) rest rfl]; exact ih _
    | int n => rw [writesOf_skip_cons (k, Value.int n) rest rfl]; exact ih _
    | float r => rw [writesOf_skip_cons (k, Value.float r) rest rfl]; exact ih _
    | str s => rw [writesOf_skip_cons (k, Value.str s) rest rfl]; exact ih _

theorem augment_record_eq (r : Record) : augment_record r = applyWrites r (writesOf r) :=
  foldl_augmentStep r r

theorem mem_writesOf_keys (entries : Record) (k : String)
    (h : k ∈ (writesOf entries).map Prod.fst) : ∃ s, k = s ++ "_search" := by
  rcases List.mem_map.mp h with ⟨w, hw, rfl⟩
  rcases List.mem_filterMap.mp hw with ⟨kv, _, hf⟩
  obtain ⟨k1, v⟩ := kv
  cases v with
  | list items => cases hf; exact ⟨k1, rfl⟩
  | dict es => cases hf; exact ⟨k1, rfl⟩
  | null => exact Option.noConfusion hf
  | bool b => exact Option.noConfusion hf
  | int n => exact Option.noConfusion hf
  | float r => exact Option.noConfusion hf
  | str s => exact Option.noConfusion hf

theorem lookupVal_augment_of_ne_search (r : Record) (k : String)
    (h : ∀ s : String, k ≠ s ++ "_search") :
    lookupVal (augment_record r) k = lookupVal r k := by
  rw [augment_record_eq]
  apply lookupVal_applyWrites_of_not_mem
  intro hmem
  rcases mem_writesOf_keys r k hmem with ⟨s, hs⟩
  exact h s hs

theorem ne_append_search_of_short (k : String) (hlen : k.length < 7) :
    ∀ s, k ≠ s ++ "_search" := by
  intro s h
  rw [h, String.length_append] at hlen
  have h7 : ("_search" : String).length = 7 := rfl
  omega

theorem idOf_loaded_record (p : Int × FlatRow) :
    idOf (augment_record (dictSet p.2.source "id" (.int p.1))) = some p.1 := by
  have h1 : lookupVal (augment_record (dictSet p.2.source "id" (.int p.1))) "id" =
      some (.int p.1) := by
    rw [lookupVal_augment_of_ne_search _ _ (ne_append_search_of_short "id" (by decide))]
    exact lookupVal_dictSet_self _ _ _
  simp [idOf, h1]

theorem filterMap_eq_map_of_forall {α β : Type} (f : α → Option β) (g : α → β) :
    ∀ l : List α, (∀ a ∈ l, f a = some (g a)) → l.filterMap f = l.map g
  | [], _ => rfl
  | x :: xs, h => by
    rw [List.filterMap_cons, h x (List.mem_cons_self _ _), List.map_cons,
      filterMap_eq_map_of_forall f g xs fun a ha => h a (List.mem_cons_of_mem _ ha)]

theorem allIds_eq (store : PaperStore) :
    store.allIds = (stableSortBy (fun a b => decide (a.1 ≤ b.1)) store.db.papers).map Prod.fst := by
  rw [PaperStore.allIds, PaperStore.records, fetch_all_records, List.map_map,
    List.filterMap_map]
  exact filterMap_eq_map_of_forall _ _ _ fun p _ => idOf_loaded_record p

theorem allIds_sorted (store : PaperStore) :
    store.allIds.Pairwise (fun a b => a ≤ b) := by
  rw [allIds_eq]
  have hs := sorted_stableSortBy (fun a b : Int × FlatRow => decide (a.1 ≤ b.1))
    (fun a b c hab hbc => by
      simp only [decide_eq_true_eq] at *
      exact le_trans hab hbc)
    (fun a b => by
      simp only [decide_eq_true_eq]
      exact Int.le_total _ _)
    store.db.papers
  exact List.pairwise_map.mpr (hs.imp fun h => of_decide_eq_true h)

/-! ## The boolean string comparison agrees with `≤` -/

theorem charsLe_iff : ∀ as bs : List Char, charsLe as bs = true ↔ ¬ List.lt bs as
  | [], bs => by
    constructor
    · intro _ h
      cases h
    · intro _; rfl
  | a :: as, [] => by
    constructor
    · intro h; exact absurd h (by simp [charsLe])
    · intro h; exact absurd (List.lt.nil a as) h
  | a :: as, b :: bs => by
    rw [charsLe]
    by_cases hab : a < b
    · simp only [if_pos hab]
      constructor
      · intro _ h
        cases h with
        | head _ _ h' => exact absurd h' (lt_asymm hab)
        | tail h₁ h₂ h₃ => exact absurd hab h₂
      · intro _; trivial
    · rw [if_neg hab]
      by_cases hba : b < a
      · simp only [if_pos hba]
        constructor
        · intro h; cases h
        · intro h; exact absurd (List.lt.head bs as hba) h
      · simp only [if_neg hba]
        rw [charsLe_iff as bs]
        constructor
        · intro h hlt
          cases hlt with
          | head _ _ h' => exact absurd h' hba
          | tail h₁ h₂ h₃ => exact absurd h₃ h
        · intro h hlt
          exact h (List.lt.tail hba hab hlt)

theorem strLe_iff (a b : String) : strLe a b = true ↔ a ≤ b := by
  rw [String.le_iff_toList_le]
  constructor
  · intro h
    rw [← not_lt]
    intro hba
    have hlex : List.Lex (· < ·) b.data a.data := hba
    exact (charsLe_iff a.data b.data).mp h ((List.lt_iff_lex_lt b.data a.data).mpr hlex)
  · intro h
    rw [← not_lt] at h
    refine (charsLe_iff a.data b.data).mpr ?_
    intro hlt
    exact h ((List.lt_iff_lex_lt b.data a.data).mp hlt)

theorem strLe_trans {a b c : String} (hab : strLe a b = true) (hbc : strLe b c = true) :
    strLe a c = true :=
  (strLe_iff a c).mpr (le_trans ((strLe_iff a b).mp hab) ((strLe_iff b c).mp hbc))

theorem strLe_total (a b : String) : strLe a b = true ∨ strLe b a = true := by
  rcases le_total a b with h | h
  · exact Or.inl ((strLe_iff a b).mpr h)
  · exact Or.inr ((strLe_iff b a).mpr h)

/-! ## Sorting-stage lemmas -/

theorem sort_records_nil (f : String) (d : Bool) : sort_records [] f d = [] := rfl

theorem sort_records_length (l : List Record) (f : String) (d : Bool) :
    (sort_records l f d).length = l.length :=
  length_stableSortBy _ l

theorem orderMatched_nil (sb so seed : Option String) : orderMatched sb so seed [] = [] := by
  cases sb with
  | none => rfl
  | some s =>
    rw [orderMatched]
    split
    · rfl
    · split <;> rfl

theorem orderMatched_length (sb so seed : Option String) (l : List Record) :
    (orderMatched sb so seed l).length = l.length := by
  cases sb with
  | none => exact sort_records_length l "name" false
  | some s =>
    rw [orderMatched]
    split
    · exact length_stableSortBy _ l
    · split
      · exact sort_records_length l "name" false
      · exact sort_records_length l s _

theorem searchMatched_eq_nil_of_early (store : PaperStore) (q : Option String)
    (f : Option (List (String × Value))) (h : searchEarlyEmpty store q = true) :
    searchMatched store q f = [] := by
  cases q with
  | none => simp [searchEarlyEmpty] at h
  | some s =>
    by_cases hs : s = ""
    · simp [searchEarlyEmpty, hs] at h
    · rw [searchEarlyEmpty] at h
      simp only [if_neg hs, List.isEmpty_iff] at h
      simp [searchMatched, searchCandidateIds, hs, h]

/-- `search` decomposed into its stages: filtered count, ordering, slicing.
(The early `return 0, []` agrees with the general formula because the
matched set is then empty.) -/
theorem search_eq (store : PaperStore) (q : Option String)
    (f : Option (List (String × Value))) (page : Int) (ps : Nat)
    (sb so seed : Option String) :
    search store q f page ps sb so seed =
      ((searchMatched store q f).length,
        ((orderMatched sb so seed (searchMatched store q f)).drop
          ((max (page - 1) 0).toNat * ps)).take ps) := by
  by_cases h : searchEarlyEmpty store q = true
  · have hm := searchMatched_eq_nil_of_early store q f h
    simp [search, h, hm, orderMatched_nil]
  · simp [search, h]

/-- C4: the returned total is the size of the fully filtered candidate set
before slicing, independent of `page` and `page_size`; the returned page is
the slice `[max(page-1,0)*page_size, max(page-1,0)*page_size + page_size)`
of the ordered filtered sequence; a page beyond the last yields an empty
list with the total unchanged, never an error. -/
theorem search_pagination_contract (store : PaperStore) (q : Option String)
    (f : Option (List (String × Value))) (page : Int) (ps : Nat)
    (sb so seed : Option String) :
    (search store q f page ps sb so seed).1 = (searchMatched store q f).length ∧
    (search store q f page ps sb so seed).2 =
      ((orderMatched sb so seed (searchMatched store q f)).drop
        ((max (page - 1) 0).toNat * ps)).take ps ∧
    ((searchMatched store q f).length ≤ (max (page - 1) 0).toNat * ps →
      (search store q f page ps sb so seed).2 = []) := by
  rw [search_eq store q f page ps sb so seed]
  refine ⟨rfl, rfl, fun hle => ?_⟩
  have hlen : (orderMatched sb so seed (searchMatched store q f)).length ≤
      (max (page - 1) 0).toNat * ps := by
    rw [orderMatched_length]; exact hle
  simp [List.drop_eq_nil_of_le hlen]

/-- Witness for C4: on the three-paper demo corpus, page 5 with page size 2
is beyond the last page and returns an empty list. -/
theorem search_pagination_contract_witness :
    (searchMatched demoStore none none).length ≤ (max ((5 : Int) - 1) 0).toNat * 2 ∧
    (search demoStore none none 5 2 none none none).2 = [] := by
  refine ⟨by decide, ?_⟩
  exact (search_pagination_contract demoStore none none 5 2 none none none).2.2 (by decide)

/-- C1: with `sort_by = "random"`, the result page is the corresponding
slice of the matched records sorted ascending by the key formed from the
first 8 bytes (big-endian, unsigned) of `sha256(f"{seed or 0}:{id}")`; the
sorted list is a permutation of the matched set and is pairwise ascending
in that key.  Determinism of two identical calls on an unchanged corpus is
immediate: `search` is a pure function of its arguments. -/
theorem search_random_order (store : PaperStore) (q : Option String)
    (f : Option (List (String × Value))) (page : Int) (ps : Nat)
    (so seed : Option String) :
    search store q f page ps (some "random") so seed =
      ((searchMatched store q f).length,
        ((stableSortBy
            (fun a b => decide (rand_key (randSeedStr seed) a ≤ rand_key (randSeedStr seed) b))
            (searchMatched store q f)).drop
          ((max (page - 1) 0).toNat * ps)).take ps) ∧
    (stableSortBy
        (fun a b => decide (rand_key (randSeedStr seed) a ≤ rand_key (randSeedStr seed) b))
        (searchMatched store q f)).Pairwise
      (fun a b => rand_key (randSeedStr seed) a ≤ rand_key (randSeedStr seed) b) ∧
    (stableSortBy
        (fun a b => decide (rand_key (randSeedStr seed) a ≤ rand_key (randSeedStr seed) b))
        (searchMatched store q f)).Perm
      (searchMatched store q f) := by
  refine ⟨?_, ?_, perm_stableSortBy _ _⟩
  · rw [search_eq store q f page ps (some "random") so seed]
    rfl
  · have hs := sorted_stableSortBy
      (fun a b => decide (rand_key (randSeedStr seed) a ≤ rand_key (randSeedStr seed) b))
      (fun a b c hab hbc => by
        simp only [decide_eq_true_eq] at *
        exact le_trans hab hbc)
      (fun a b => by
        simp only [decide_eq_true_eq]
        exact Nat.le_total _ _)
      (searchMatched store q f)
    exact hs.imp fun h => of_decide_eq_true h

/-- C2 counterexample: the claim states that a query containing only
punctuation yields the full candidate set; on the demo corpus the
punctuation-only query `"!"` tokenizes to nothing, the candidate set is
empty (not the full `[1, 2, 3]`) and `search` returns `(0, [])`. -/
theorem punct_query_counterexample :
    wordTokens "!" = [] ∧
    searchCandidateIds demoStore (some "!") = [] ∧
    demoStore.allIds = [1, 2, 3] ∧
    searchCandidateIds demoStore (some "!") ≠ demoStore.allIds ∧
    search demoStore (some "!") none 1 10 none none none = (0, []) := by
  refine ⟨rfl, rfl, rfl, ?_, rfl⟩
  decide

/-- C2 (amended): an empty (or absent) query yields the full candidate set
of every document id in ascending order before filters are applied; a
non-empty query that tokenizes to zero tokens instead short-circuits with
an empty candidate set, and the search returns `(0, [])`. -/
theorem empty_query_candidates (store : PaperStore) (q : String)
    (f : Option (List (String × Value))) (page : Int) (ps : Nat)
    (sb so seed : Option String) :
    searchCandidateIds store none = store.allIds ∧
    searchCandidateIds store (some "") = store.allIds ∧
    store.allIds.Pairwise (fun a b => a ≤ b) ∧
    (q ≠ "" → wordTokens q = [] →
      searchCandidateIds store (some q) = [] ∧
      search store (some q) f page ps sb so seed = (0, [])) := by
  refine ⟨rfl, rfl, allIds_sorted store, fun hne htok => ?_⟩
  have hp : prepare_fts_query q = "" := by
    rw [prepare_fts_query]
    simp [htok]
  have hfts : fts_lookup store q = [] := by
    rw [fts_lookup, if_neg hne, hp]
    simp
  constructor
  · simp [searchCandidateIds, hne, hfts]
  · have hee : searchEarlyEmpty store (some q) = true := by
      simp [searchEarlyEmpty, hne, hfts]
    simp [search, hee]

/-- Witness for C2: the non-empty punctuation query `"!"` on the demo
corpus takes the zero-token branch. -/
theorem empty_query_candidates_witness :
    ("!" : String) ≠ "" ∧ wordTokens "!" = [] ∧
    searchCandidateIds demoStore (some "!") = [] ∧
    search demoStore (some "!") none 1 10 none none none = (0, []) := by
  have h := (empty_query_candidates demoStore "!" none 1 10 none none none).2.2.2
    (by decide) rfl
  exact ⟨by decide, rfl, h.1, h.2⟩

/-- C5: with `sort_by` omitted or empty the result page is the
corresponding slice of the matched records sorted ascending by the
lowercased string form of `name` (first element for lists, `""` for
null/absent); the sort is stable — each class of records with equal keys
keeps exactly its prior relative order. -/
theorem search_default_order (store : PaperStore) (q : Option String)
    (f : Option (List (String × Value))) (page : Int) (ps : Nat)
    (sb so seed : Option String) (hsb : sb = none ∨ sb = some "") :
    search store q f page ps sb so seed =
      ((searchMatched store q f).length,
        ((sort_records (searchMatched store q f) "name" false).drop
          ((max (page - 1) 0).toNat * ps)).take ps) ∧
    (sort_records (searchMatched store q f) "name" false).Pairwise
      (fun a b => sortKeyFor "name" a ≤ sortKeyFor "name" b) ∧
    ∀ k : String,
      (sort_records (searchMatched store q f) "name" false).filter
          (fun r => sortKeyFor "name" r == k) =
        (searchMatched store q f).filter (fun r => sortKeyFor "name" r == k) := by
  have hord : orderMatched sb so seed (searchMatched store q f) =
      sort_records (searchMatched store q f) "name" false := by
    rcases hsb with rfl | rfl <;> rfl
  refine ⟨?_, ?_, ?_⟩
  · rw [search_eq, hord]
  · have hs := sorted_stableSortBy
      (fun a b => strLe (sortKeyFor "name" a) (sortKeyFor "name" b))
      (fun a b c hab hbc => strLe_trans hab hbc)
      (fun a b => strLe_total _ _)
      (searchMatched store q f)
    exact hs.imp fun h => (strLe_iff _ _).mp h
  · intro k
    exact filter_stableSortBy
      (fun a b => strLe (sortKeyFor "name" a) (sortKeyFor "name" b))
      (fun r => sortKeyFor "name" r == k)
      (fun x y hx hy => by
        have hx' : sortKeyFor "name" x = k := by simpa using hx
        have hy' : sortKeyFor "name" y = k := by simpa using hy
        show strLe (sortKeyFor "name" x) (sortKeyFor "name" y) = true
        rw [hx', hy']
        exact (strLe_iff k k).mpr (le_refl k))
      (searchMatched store q f)

/-- Witness for C5: the demo corpus (`Beta`, `Alpha`, `alpha` with ids
1, 2, 3) comes back as `Alpha`(2), `alpha`(3), `Beta`(1): the two
case-insensitively tied names keep their original relative order, ahead of
`Beta`. -/
theorem search_default_order_witness :
    ((none : Option String) = none ∨ (none : Option String) = some "") ∧
    search demoStore none none 1 10 none none none =
      (3, [[("name", Value.str "Alpha"), ("id", Value.int 2)],
           [("name", Value.str "alpha"), ("id", Value.int 3)],
           [("name", Value.str "Beta"), ("tags", Value.list [Value.str "NLP", Value.str "Vision"]),
            ("id", Value.int 1), ("tags_search", Value.str "NLP | Vision")]]) ∧
    (sort_records (searchMatched demoStore none none) "name" false).filter
        (fun r => sortKeyFor "name" r == "alpha") =
      (searchMatched demoStore none none).filter
        (fun r => sortKeyFor "name" r == "alpha") := by
  have h := search_default_order demoStore none none 1 10 none none none (Or.inl rfl)
  exact ⟨Or.inl rfl, h.1.trans (by rfl), h.2.2 "alpha"⟩

/-- One filter field of `record_matches_filters`, characterized. -/
theorem filter_field_iff (record : Record) (fv : String × List String) :
    (fv.2.isEmpty ||
      match effectiveValue record fv.1 with
      | none => false
      | some v => fieldMatches fv.2 v) = true ↔
    (fv.2 ≠ [] →
      ∃ v, effectiveValue record fv.1 = some v ∧
        ∃ tok ∈ fieldTokens v, ∃ s ∈ fv.2,
          strContains (strLower tok) (strLower s) = true) := by
  by_cases hemp : fv.2 = []
  · simp [hemp]
  · have hne : fv.2.isEmpty = false := by simpa [List.isEmpty_iff] using hemp
    rw [hne]
    simp only [Bool.false_or]
    cases hv : effectiveValue record fv.1 with
    | none => simp [hemp]
    | some v =>
      simp only [hemp, ne_eq, not_false_eq_true, forall_const, Option.some.injEq]
      rw [fieldMatches]
      simp only [List.any_eq_true, List.mem_map]
      constructor
      · rintro ⟨tok', ⟨tok, htok, rfl⟩, s, hs, hcon⟩
        exact ⟨v, rfl, tok, htok, s, hs, hcon⟩
      · rintro ⟨v', hv', tok, htok, s, hs, hcon⟩
        cases hv'
        exact ⟨strLower tok, ⟨tok, htok, rfl⟩, s, hs, hcon⟩

/-- C3 counterexample: `normalise_filters` keeps a field whose values all
normalize away (as an empty list), and `record_matches_filters` then skips
it — the empty record is retained — while the claim's retention predicate
(which demands a non-null value and a matching filter value for *every*
filter field) rejects it. -/
theorem filter_empty_values_counterexample :
    normalise_filters (some [("tags", Value.str " ")]) = [("tags", [])] ∧
    record_matches_filters [] [("tags", [])] = true ∧
    claimFilterRetained [] [("tags", [])] = false :=
  ⟨rfl, rfl, rfl⟩

/-- C3 (amended): a document is retained iff for every filter field *with a
non-empty value list*, the field's value (or its `_search` companion when
the primary value is absent) is non-null and at least one filter value,
lowercased, occurs as a substring of at least one lowercased token derived
from it (scalar → one token, list → one token per element, dict → its
string form); a filter field whose normalized value list is empty is
skipped.  AND across fields, OR within a field's value list. -/
theorem record_matches_filters_iff (record : Record)
    (filters : List (String × List String)) :
    record_matches_filters record filters = true ↔
      ∀ fv ∈ filters, fv.2 ≠ [] →
        ∃ v, effectiveValue record fv.1 = some v ∧
          ∃ tok ∈ fieldTokens v, ∃ s ∈ fv.2,
            strContains (strLower tok) (strLower s) = true := by
  rw [record_matches_filters, List.all_eq_true]
  exact forall₂_congr fun fv _ => filter_field_iff record fv

/-! ## Schema classification lemmas -/

theorem lookupTag_setTag_self (m : List (String × String)) (k v : String) :
    lookupTag (setTag m k v) k = some v := by
  induction m with
  | nil => simp [setTag, lookupTag]
  | cons kv rest ih =>
    by_cases h : kv.1 = k
    · simp [setTag, h, lookupTag]
    · simp [setTag, h, lookupTag, ih]

theorem lookupTag_setTag_ne (m : List (String × String)) (k k' v : String)
    (h : k' ≠ k) : lookupTag (setTag m k v) k' = lookupTag m k' := by
  have hne : ¬ k = k' := fun hh => h hh.symm
  induction m with
  | nil => simp [setTag, lookupTag, hne]
  | cons kv rest ih =>
    by_cases hk : kv.1 = k
    · simp [setTag, hk, lookupTag, hne]
    · simp [setTag, hk, lookupTag, ih]

theorem detect_type_ne_mixed (v : Value) : detect_type v ≠ "mixed" := by
  cases v with
  | null => decide
  | bool b =>
    show ("boolean" : String) ≠ "mixed"
    decide
  | int n =>
    show ("integer" : String) ≠ "mixed"
    decide
  | float r =>
    show ("float" : String) ≠ "mixed"
    decide
  | str s =>
    show ("string" : String) ≠ "mixed"
    decide
  | list items =>
    show ("array" : String) ≠ "mixed"
    decide
  | dict entries =>
    show ("object" : String) ≠ "mixed"
    decide

theorem combineTag_cons (cur : Option String) (v : Value) (vs : List Value) :
    combineTag cur (v :: vs) = combineTag (combineStep cur v) vs := rfl

theorem combineTag_append (cur : Option String) (a b : List Value) :
    combineTag cur (a ++ b) = combineTag (combineTag cur a) b := by
  simp [combineTag, List.foldl_append]

theorem lookupTag_stepBody (ft : List (String × String)) (key dd : String) :
    lookupTag (match lookupTag ft key with
               | some t => if t ≠ dd then setTag ft key "mixed" else ft
               | none => setTag ft key dd) key =
      (match lookupTag ft key with
       | none => some dd
       | some t => some (if t ≠ dd then "mixed" else t)) := by
  cases hcur : lookupTag ft key with
  | none => simp [lookupTag_setTag_self]
  | some t =>
    by_cases hd : t = dd
    · simp [hd, hcur]
    · simp [hd, lookupTag_setTag_self]

theorem lookupTag_foldl_schemaStep (key : String) :
    ∀ (entries : Record) (ft : List (String × String)),
      lookupTag (entries.foldl schemaStep ft) key =
        combineTag (lookupTag ft key) (entriesObs entries key)
  | [], ft => rfl
  | kv :: rest, ft => by
    obtain ⟨k, v⟩ := kv
    rw [List.foldl_cons, lookupTag_foldl_schemaStep key rest (schemaStep ft (k, v))]
    cases hnull : isNullV v with
    | true =>
      have h1 : schemaStep ft (k, v) = ft := by rw [schemaStep, if_pos hnull]
      have h2 : entriesObs ((k, v) :: rest) key = entriesObs rest key := by
        simp [entriesObs, List.filterMap_cons, hnull]
      rw [h1, h2]
    | false =>
      by_cases hk : k = key
      · subst hk
        have h1 : lookupTag (schemaStep ft (k, v)) k = combineStep (lookupTag ft k) v := by
          rw [schemaStep, if_neg (by simp [hnull]), lookupTag_stepBody ft k (detect_type v)]
          cases lookupTag ft k <;> rfl
        have h2 : entriesObs ((k, v) :: rest) k = v :: entriesObs rest k := by
          simp [entriesObs, List.filterMap_cons, hnull]
        rw [h1, h2, combineTag_cons]
      · have hkey : key ≠ k := fun hh => hk hh.symm
        have h1 : lookupTag (schemaStep ft (k, v)) key = lookupTag ft key := by
          rw [schemaStep, if_neg (by simp [hnull])]
          cases hcur : lookupTag ft k with
          | none => exact lookupTag_setTag_ne _ _ _ _ hkey
          | some t =>
            by_cases hd : t = detect_type v
            · simp [hd]
            · simp only [ne_eq, hd, not_false_eq_true, if_true]
              exact lookupTag_setTag_ne _ _ _ _ hkey
        have h2 : entriesObs ((k, v) :: rest) key = entriesObs rest key := by
          simp [entriesObs, List.filterMap_cons, hnull, hk]
        rw [h1, h2]

theorem fieldObservations_cons (r : Record) (rest : List Record) (key : String) :
    fieldObservations (r :: rest) key = entriesObs r key ++ fieldObservations rest key := by
  simp [fieldObservations, entriesObs, List.filterMap_append]

theorem lookupTag_schemaFold_aux (key : String) :
    ∀ (records : List Record) (ft : List (String × String)),
      lookupTag (records.foldl (fun a r => r.foldl schemaStep a) ft) key =
        combineTag (lookupTag ft key) (fieldObservations records key)
  | [], ft => rfl
  | r :: rest, ft => by
    rw [List.foldl_cons, lookupTag_schemaFold_aux key rest (r.foldl schemaStep ft),
      lookupTag_foldl_schemaStep key r ft, fieldObservations_cons, combineTag_append]

theorem combineTag_mixed : ∀ vs : List Value, combineTag (some "mixed") vs = some "mixed"
  | [] => rfl
  | v :: vs => by
    have hstep : combineStep (some "mixed") v = some "mixed" := by
      rw [combineStep]
      split <;> rfl
    rw [combineTag_cons, hstep, combineTag_mixed vs]

theorem combineTag_some : ∀ (vs : List Value) (t : String), t ≠ "mixed" →
    combineTag (some t) vs =
      some (if vs.all (fun w => detect_type w == t) then t else "mixed")
  | [], t, _ => by simp [combineTag]
  | v :: vs, t, ht => by
    by_cases hd : detect_type v = t
    · have hstep : combineStep (some t) v = some t := by simp [combineStep, hd]
      rw [combineTag_cons, hstep, combineTag_some vs t ht]
      simp [List.all_cons, hd]
    · have hstep : combineStep (some t) v = some "mixed" := by
        rw [combineStep, if_pos (fun hh => hd hh.symm)]
      rw [combineTag_cons, hstep, combineTag_mixed]
      have hbeq : (detect_type v == t) = false := by simp [hd]
      simp [List.all_cons, hbeq]

theorem combineTag_none_eq_classify : ∀ obs : List Value,
    combineTag none obs = classifyObs obs
  | [] => rfl
  | v :: vs => by
    rw [combineTag_cons, show combineStep none v = some (detect_type v) from rfl,
      combineTag_some vs (detect_type v) (detect_type_ne_mixed v)]
    rfl

/-- C9: `schema()` classifies each field by scanning every non-null value
with `detect_type` (boolean before integer before float before object
before array, else string — in particular a bool is `boolean`, never
`integer`) and reports `mixed` exactly when at least two observed values
classify differently; once demoted, a field stays `mixed` (the
characterization is in terms of the whole observation list, so it is
insensitive to when the conflict appears). -/
theorem schema_field_classification :
    (∀ (records : List Record) (key : String),
      lookupTag (schemaFieldTypes records) key =
        classifyObs (fieldObservations records key)) ∧
    (∀ b, detect_type (.bool b) = "boolean") := by
  refine ⟨fun records key => ?_, fun b => rfl⟩
  rw [schemaFieldTypes, lookupTag_schemaFold_aux key records []]
  exact combineTag_none_eq_classify _

/-! ## Build-rejection lemmas -/

theorem lookupVal_none_forall (m : Record) (k : String) (h : lookupVal m k = none) :
    ∀ kv ∈ m, kv.1 ≠ k := by
  induction m with
  | nil => simp
  | cons hd rest ih =>
    intro kv hkv
    rcases List.mem_cons.mp hkv with rfl | hkv
    · intro he
      simp [lookupVal, he] at h
    · by_cases hh : hd.1 = k
      · simp [lookupVal, hh] at h
      · rw [lookupVal, if_neg hh] at h
        exact ih h kv hkv

theorem normStep_ne_id (acc : Option Int × Record × List String) (kv : String × Value)
    (h : kv.1 ≠ "id") : ∃ c fr, normStep acc kv = .ok (acc.1, c, fr) := by
  obtain ⟨k, v⟩ := kv
  simp only [normStep, if_neg h]
  cases v with
  | null => exact ⟨_, _, rfl⟩
  | bool b => exact ⟨_, _, rfl⟩
  | int n => exact ⟨_, _, rfl⟩
  | float r => exact ⟨_, _, rfl⟩
  | str s => exact ⟨_, _, rfl⟩
  | dict es => exact ⟨_, _, rfl⟩
  | list items =>
    dsimp only
    by_cases hj : listJoined items ≠ ""
    · rw [if_pos hj]
      exact ⟨_, _, rfl⟩
    · rw [if_neg hj]
      exact ⟨_, _, rfl⟩

theorem foldlM_normStep_nullid :
    ∀ (entries : Record) (acc : Option Int × Record × List String),
      acc.1 = none → (∀ kv ∈ entries, kv.1 = "id" → isNullV kv.2 = true) →
      ∃ c fr, List.foldlM normStep acc entries = .ok (none, c, fr)
  | [], acc, hacc, _ => by
    obtain ⟨a1, a2, a3⟩ := acc
    cases hacc
    exact ⟨a2, a3, rfl⟩
  | kv :: rest, acc, hacc, hnull => by
    simp only [List.foldlM_cons]
    by_cases hid : kv.1 = "id"
    · have hn := hnull kv (List.mem_cons_self _ _) hid
      have hstep : normStep acc kv = .ok (none, acc.2) := by
        rw [normStep, if_pos hid, if_pos hn]
      obtain ⟨c, fr, hf⟩ := foldlM_normStep_nullid rest (none, acc.2) rfl
        (fun kv' h' => hnull kv' (List.mem_cons_of_mem _ h'))
      refine ⟨c, fr, ?_⟩
      rw [hstep]
      exact hf
    · obtain ⟨c0, f0, hstep⟩ := normStep_ne_id acc kv hid
      rw [hacc] at hstep
      obtain ⟨c, fr, hf⟩ := foldlM_normStep_nullid rest (none, c0, f0) rfl
        (fun kv' h' => hnull kv' (List.mem_cons_of_mem _ h'))
      refine ⟨c, fr, ?_⟩
      rw [hstep]
      exact hf

theorem foldlM_normStep_badint :
    ∀ (entries : Record) (acc : Option Int × Record × List String),
      (∃ kv ∈ entries, kv.1 = "id" ∧ isNullV kv.2 = false ∧ pyToInt kv.2 = none) →
      ∃ e, List.foldlM normStep acc entries = .error e
  | [], _, h => by
    rcases h with ⟨kv, hkv, _⟩
    simp at hkv
  | kv' :: rest, acc, h => by
    simp only [List.foldlM_cons]
    cases hstep : normStep acc kv' with
    | error e => exact ⟨e, rfl⟩
    | ok acc' =>
      rcases h with ⟨kv, hkv, hid, hnn, hto⟩
      rcases List.mem_cons.mp hkv with rfl | hkv
      · exfalso
        rw [normStep, if_pos hid, if_neg (by simp [hnn]), hto] at hstep
        cases hstep
      · obtain ⟨e, hf⟩ := foldlM_normStep_badint rest acc' ⟨kv, hkv, hid, hnn, hto⟩
        exact ⟨e, hf⟩

theorem normalise_bad (record : Record) (hnd : (record.map Prod.fst).Nodup)
    (hbad : badId record) :
    (∃ e, normalise_record record = .error e) ∨
    (∃ row, normalise_record record = .ok row ∧ row.rowId = none) := by
  unfold badId at hbad
  cases hl : lookupVal record "id" with
  | none =>
    have hforall : ∀ kv ∈ record, kv.1 = "id" → isNullV kv.2 = true := fun kv hkv hid =>
      absurd hid (lookupVal_none_forall record "id" hl kv hkv)
    obtain ⟨c, fr, hf⟩ := foldlM_normStep_nullid record (none, [], []) rfl hforall
    right
    exact ⟨_, by rw [normalise_record, hf], rfl⟩
  | some v =>
    rw [hl] at hbad
    cases v with
    | null =>
      have hforall : ∀ kv ∈ record, kv.1 = "id" → isNullV kv.2 = true := by
        intro kv hkv hid
        have hkv2 := lookupVal_eq_some_of_mem record kv hnd hkv
        rw [hid, hl] at hkv2
        rw [(Option.some.inj hkv2).symm]
        rfl
      obtain ⟨c, fr, hf⟩ := foldlM_normStep_nullid record (none, [], []) rfl hforall
      right
      exact ⟨_, by rw [normalise_record, hf], rfl⟩
    | bool b =>
      left
      obtain ⟨e, hf⟩ := foldlM_normStep_badint record (none, [], [])
        ⟨_, mem_of_lookupVal_eq_some record "id" _ hl, rfl, rfl, hbad⟩
      exact ⟨e, by rw [normalise_record, hf]⟩
    | int n =>
      left
      obtain ⟨e, hf⟩ := foldlM_normStep_badint record (none, [], [])
        ⟨_, mem_of_lookupVal_eq_some record "id" _ hl, rfl, rfl, hbad⟩
      exact ⟨e, by rw [normalise_record, hf]⟩
    | float r =>
      left
      obtain ⟨e, hf⟩ := foldlM_normStep_badint record (none, [], [])
        ⟨_, mem_of_lookupVal_eq_some record "id" _ hl, rfl, rfl, hbad⟩
      exact ⟨e, by rw [normalise_record, hf]⟩
    | str s =>
      left
      obtain ⟨e, hf⟩ := foldlM_normStep_badint record (none, [], [])
        ⟨_, mem_of_lookupVal_eq_some record "id" _ hl, rfl, rfl, hbad⟩
      exact ⟨e, by rw [normalise_record, hf]⟩
    | list items =>
      left
      obtain ⟨e, hf⟩ := foldlM_normStep_badint record (none, [], [])
        ⟨_, mem_of_lookupVal_eq_some record "id" _ hl, rfl, rfl, hbad⟩
      exact ⟨e, by rw [normalise_record, hf]⟩
    | dict es =>
      left
      obtain ⟨e, hf⟩ := foldlM_normStep_badint record (none, [], [])
        ⟨_, mem_of_lookupVal_eq_some record "id" _ hl, rfl, rfl, hbad⟩
      exact ⟨e, by rw [normalise_record, hf]⟩

theorem prepare_rows_error_of_bad :
    ∀ (docs : List Value) (record : Record),
      Value.dict record ∈ docs → (record.map Prod.fst).Nodup → badId record →
      exceptOk (prepare_rows docs) = false
  | [], record, hmem, _, _ => absurd hmem (List.not_mem_nil _)
  | doc :: rest, record, hmem, hnd, hbad => by
    rcases List.mem_cons.mp hmem with heq | hmem'
    · have hrow : ∃ e, prepareRow doc = .error e := by
        rcases normalise_bad record hnd hbad with ⟨e, he⟩ | ⟨row, hro, hnone⟩
        · exact ⟨e, by simp [prepareRow, ← heq, toRecord, he]⟩
        · exact ⟨"Each record must include a numeric id",
            by simp [prepareRow, ← heq, toRecord, hro, hnone]⟩
      rcases hrow with ⟨e, he⟩
      rw [prepare_rows, he]
      rfl
    · rw [prepare_rows]
      cases hd : prepareRow doc with
      | error e => rfl
      | ok row =>
        have hrest := prepare_rows_error_of_bad rest record hmem' hnd hbad
        cases hr : prepare_rows rest with
        | error e => rfl
        | ok rows =>
          rw [hr] at hrest
          simp [exceptOk] at hrest

/-- C6 counterexample: a record whose id is the *negative* integer `-1`
passes `prepare_rows` (its id converts via `int()` and is stored as `-1`),
so "not convertible to a non-negative integer" is not rejected as the
claim states. -/
theorem negative_id_accepted_counterexample :
    exceptOk (prepare_rows [Value.dict [("id", Value.int (-1))]]) = true ∧
    (match prepare_rows [Value.dict [("id", Value.int (-1))]] with
     | .ok rows => rows.map FlatRow.rowId
     | .error _ => []) = [some (-1)] ∧
    ((-1 : Int) < 0) :=
  ⟨rfl, rfl, by decide⟩

/-- C6 (amended): a raw document whose `id` is missing, null, or rejected
by Python's `int()` (strings that do not parse, lists, dicts — but *any*
integer, negative ones included, converts) makes the whole build raise. -/
theorem build_rejects_bad_id (docs : List Value) (record : Record)
    (hmem : Value.dict record ∈ docs) (hnd : (record.map Prod.fst).Nodup)
    (hbad : badId record) : exceptOk (prepare_rows docs) = false :=
  prepare_rows_error_of_bad docs record hmem hnd hbad

/-- Witness for C6: a single document with a null id is rejected. -/
theorem build_rejects_bad_id_witness :
    Value.dict [("id", Value.null)] ∈ [Value.dict [("id", Value.null)]] ∧
    (([("id", Value.null)] : Record).map Prod.fst).Nodup ∧
    badId [("id", Value.null)] ∧
    exceptOk (prepare_rows [Value.dict [("id", Value.null)]]) = false := by
  refine ⟨List.mem_singleton.mpr rfl, by decide, trivial, ?_⟩
  exact build_rejects_bad_id _ [("id", Value.null)] (List.mem_singleton.mpr rfl)
    (by decide) trivial

/-- C7: a malformed top-level corpus shape, or a document with a missing or
null id, makes the builder raise before any effect is performed on the
output path: the pre-existing store is left untouched. -/
theorem build_aborts_before_write (payload : Value) (prior : Option Database)
    (h : exceptOk (read_json payload) = false ∨
      (∃ docs record, read_json payload = .ok docs ∧ Value.dict record ∈ docs ∧
        (record.map Prod.fst).Nodup ∧
        (lookupVal record "id" = none ∨ lookupVal record "id" = some Value.null))) :
    exceptOk (build_main payload prior) = false ∧ run_build payload prior = prior := by
  have hmain : exceptOk (build_main payload prior) = false := by
    rcases h with h | ⟨docs, record, hr, hmem, hnd, hid⟩
    · cases hrj : read_json payload with
      | error e => simp [build_main, hrj, exceptOk]
      | ok docs =>
        rw [hrj] at h
        simp [exceptOk] at h
    · have hbad : badId record := by
        unfold badId
        rcases hid with hid | hid <;> rw [hid] <;> trivial
      have hpr := prepare_rows_error_of_bad docs record hmem hnd hbad
      cases hpr' : prepare_rows docs with
      | error e => simp [build_main, hr, hpr', exceptOk]
      | ok rows =>
        rw [hpr'] at hpr
        simp [exceptOk] at hpr
  refine ⟨hmain, ?_⟩
  rw [run_build]
  cases hb : build_main payload prior with
  | error e => rfl
  | ok effects =>
    rw [hb] at hmain
    simp [exceptOk] at hmain

/-- Witness for C7: a top-level JSON array is a malformed corpus shape; the
pre-existing demo store is untouched. -/
theorem build_aborts_before_write_witness :
    exceptOk (read_json (Value.list [])) = false ∧
    exceptOk (build_main (Value.list []) (some demoDb)) = false ∧
    run_build (Value.list []) (some demoDb) = some demoDb := by
  have h := build_aborts_before_write (Value.list []) (some demoDb) (Or.inl rfl)
  exact ⟨rfl, h.1, h.2⟩

/-- C10: on any store produced by the index builder, every rowid returned
by the full-text prefilter is a key of the in-memory id→document map, so
`self.record_by_id[i]` inside `search` never fails: the inverted index's
rowids come exclusively from the ids of the persisted `papers` table, and
the loader materializes every row of that table. -/
theorem fts_ids_resolvable (rows : List FlatRow) (m : String → Int → Bool)
    (q : String) (i : Int)
    (h : i ∈ fts_lookup ⟨create_database rows, m⟩ q) :
    (PaperStore.recordById ⟨create_database rows, m⟩ i).isSome = true := by
  have hid : i ∈ (create_database rows).ftsIds := by
    rw [fts_lookup] at h
    by_cases h1 : q = ""
    · rw [if_pos h1] at h
      simp at h
    · rw [if_neg h1] at h
      by_cases h2 : prepare_fts_query q = ""
      · rw [if_pos h2] at h
        simp at h
      · rw [if_neg h2] at h
        exact (List.mem_filter.mp h).1
  rw [Database.ftsIds, mem_stableSortBy] at hid
  rcases List.mem_map.mp hid with ⟨p, hp, hpi⟩
  have hrec : augment_record (dictSet p.2.source "id" (.int p.1)) ∈
      PaperStore.records ⟨create_database rows, m⟩ := by
    exact List.mem_map_of_mem _
      (List.mem_map_of_mem _ ((mem_stableSortBy _ _ _).mpr hp))
  rw [PaperStore.recordById, List.find?_isSome]
  refine ⟨_, List.mem_reverse.mpr hrec, ?_⟩
  have hio := idOf_loaded_record p
  rw [hpi] at hio
  simp only [decide_eq_true_eq]
  rw [hpi]
  exact hio

/-! ## Idempotence of `_search` augmentation -/

theorem augValue_str (v : Value) (hc : isContainer v = true) :
    ∃ s, augValue v = .str s := by
  cases v with
  | list items => exact ⟨_, rfl⟩
  | dict es => exact ⟨_, rfl⟩
  | null => simp [isContainer] at hc
  | bool b => simp [isContainer] at hc
  | int n => simp [isContainer] at hc
  | float r => simp [isContainer] at hc
  | str s => simp [isContainer] at hc

theorem mem_writesOf_iff (entries : Record) (w : String × Value) :
    w ∈ writesOf entries ↔
      ∃ kv ∈ entries, isContainer kv.2 = true ∧ w = (kv.1 ++ "_search", augValue kv.2) := by
  constructor
  · intro hw
    rcases List.mem_filterMap.mp hw with ⟨kv, hkv, hf⟩
    obtain ⟨k, v⟩ := kv
    cases v with
    | list items =>
      cases hf
      exact ⟨(k, .list items), hkv, rfl, rfl⟩
    | dict es =>
      cases hf
      exact ⟨(k, .dict es), hkv, rfl, rfl⟩
    | null => exact Option.noConfusion hf
    | bool b => exact Option.noConfusion hf
    | int n => exact Option.noConfusion hf
    | float r => exact Option.noConfusion hf
    | str s => exact Option.noConfusion hf
  · rintro ⟨kv, hkv, hc, rfl⟩
    obtain ⟨k, v⟩ := kv
    cases v with
    | list items => exact List.mem_filterMap.mpr ⟨(k, .list items), hkv, rfl⟩
    | dict es => exact List.mem_filterMap.mpr ⟨(k, .dict es), hkv, rfl⟩
    | null => simp [isContainer] at hc
    | bool b => simp [isContainer] at hc
    | int n => simp [isContainer] at hc
    | float r => simp [isContainer] at hc
    | str s => simp [isContainer] at hc

theorem writesOf_keys_eq : ∀ entries : Record,
    (writesOf entries).map Prod.fst =
      ((entries.filter fun kv => isContainer kv.2).map Prod.fst).map (fun k => k ++ "_search")
  | [] => rfl
  | (k, v) :: rest => by
    cases v with
    | list items =>
      rw [writesOf_list_cons]
      simp [List.filter_cons, isContainer, writesOf_keys_eq rest]
    | dict es =>
      rw [writesOf_dict_cons]
      simp [List.filter_cons, isContainer, writesOf_keys_eq rest]
    | null =>
      rw [writesOf_skip_cons (k, Value.null) rest rfl]
      simp [List.filter_cons, isContainer, writesOf_keys_eq rest]
    | bool b =>
      rw [writesOf_skip_cons (k, Value.bool b) rest rfl]
      simp [List.filter_cons, isContainer, writesOf_keys_eq rest]
    | int n =>
      rw [writesOf_skip_cons (k, Value.int n) rest rfl]
      simp [List.filter_cons, isContainer, writesOf_keys_eq rest]
    | float r =>
      rw [writesOf_skip_cons (k, Value.float r) rest rfl]
      simp [List.filter_cons, isContainer, writesOf_keys_eq rest]
    | str s =>
      rw [writesOf_skip_cons (k, Value.str s) rest rfl]
      simp [List.filter_cons, isContainer, writesOf_keys_eq rest]

theorem append_search_injective : Function.Injective (fun s : String => s ++ "_search") := by
  intro a b h
  have h' : a ++ "_search" = b ++ "_search" := h
  have hd : a.data ++ ("_search" : String).data = b.data ++ ("_search" : String).data := by
    rw [← String.data_append, ← String.data_append, h']
  exact String.ext (List.append_cancel_right hd)

theorem nodup_writesOf_keys (entries : Record)
    (hnd : (entries.map Prod.fst).Nodup) : ((writesOf entries).map Prod.fst).Nodup := by
  rw [writesOf_keys_eq]
  apply List.Nodup.map append_search_injective
  exact hnd.sublist (List.Sublist.map Prod.fst (List.filter_sublist entries))

/-- C8: re-augmentation is idempotent — applying the `_search`-companion
augmentation to an already-augmented record recomputes identical `_search`
values and adds no further keys.  (The in-memory document used for
filtering is `store.records`, which is definitionally the deserialized
rows with `id` injected and then `augment_record` applied, so the loaded
form is exactly one augmentation of the raw record.)  Records model Python
dicts, whose keys are unique. -/
theorem augment_record_idempotent (record : Record)
    (hnd : (record.map Prod.fst).Nodup) :
    augment_record (augment_record record) = augment_record record := by
  rw [augment_record_eq (augment_record record)]
  apply applyWrites_eq_self
  intro w hw
  rcases (mem_writesOf_iff _ w).mp hw with ⟨kv, hkv, hc, rfl⟩
  have hnd' : ((augment_record record).map Prod.fst).Nodup := by
    rw [augment_record_eq]
    exact nodup_keys_applyWrites _ _ hnd
  have hlook' : lookupVal (augment_record record) kv.1 = some kv.2 :=
    lookupVal_eq_some_of_mem _ kv hnd' hkv
  have hnotw : kv.1 ∉ (writesOf record).map Prod.fst := by
    intro hmem
    rcases List.mem_map.mp hmem with ⟨w', hw', hw1⟩
    have hval : lookupVal (augment_record record) kv.1 = some w'.2 := by
      rw [augment_record_eq, ← hw1]
      exact lookupVal_applyWrites_of_mem _ _ _ (nodup_writesOf_keys record hnd) hw'
    rw [hlook'] at hval
    have hkv2 : kv.2 = w'.2 := Option.some.inj hval
    rcases (mem_writesOf_iff record w').mp hw' with ⟨kv0, _, hc0, heq0⟩
    rcases augValue_str kv0.2 hc0 with ⟨s, hs⟩
    rw [heq0, hs] at hkv2
    rw [hkv2] at hc
    exact Bool.noConfusion hc
  have hlook : lookupVal record kv.1 = some kv.2 := by
    rw [augment_record_eq,
      lookupVal_applyWrites_of_not_mem (writesOf record) record kv.1 hnotw] at hlook'
    exact hlook'
  have hworig : (kv.1 ++ "_search", augValue kv.2) ∈ writesOf record :=
    (mem_writesOf_iff record _).mpr ⟨kv, mem_of_lookupVal_eq_some _ _ _ hlook, hc, rfl⟩
  rw [augment_record_eq]
  exact lookupVal_applyWrites_of_mem _ _ _ (nodup_writesOf_keys record hnd) hworig

/-- Witness for C8: a record with a scalar, a list (with a null element
dropped from the projection) augments to a single extra `_search` key, and
a second augmentation changes nothing. -/
theorem augment_record_idempotent_witness :
    (([("id", Value.int 1), ("tags", Value.list [Value.str "a", Value.null])] : Record).map
      Prod.fst).Nodup ∧
    augment_record (augment_record
        [("id", Value.int 1), ("tags", Value.list [Value.str "a", Value.null])]) =
      augment_record [("id", Value.int 1), ("tags", Value.list [Value.str "a", Value.null])] ∧
    augment_record [("id", Value.int 1), ("tags", Value.list [Value.str "a", Value.null])] =
      [("id", Value.int 1), ("tags", Value.list [Value.str "a", Value.null]),
       ("tags_search", Value.str "a")] :=
  ⟨by decide, augment_record_idempotent _ (by decide), rfl⟩

/-- Witness for C10: a one-row store, a matching query, and the returned id
resolves in the id→document map. -/
theorem fts_ids_resolvable_witness :
    (1 : Int) ∈ fts_lookup ⟨create_database [rowOf 1 [("id", Value.int 1)]],
      fun _ _ => true⟩ "x" ∧
    (PaperStore.recordById ⟨create_database [rowOf 1 [("id", Value.int 1)]],
      fun _ _ => true⟩ 1).isSome = true := by
  refine ⟨?_, fts_ids_resolvable _ _ "x" 1 ?_⟩ <;> decide

end Explorer
